import Mathlib

/-!
Verification of the ProtoGalaxy folding verifier of the sirius repository.

Shallow embedding of the Rust sources
  * `src/nifs/protogalaxy/poly/mod.rs` — `compute_F`, `compute_G`,
    `compute_K_from_G`, `PolyContext`, `BetaStrokeIter`;
  * `src/sps.rs` — `sps_verify`;
  * `src/ivc/protogalaxy/mod.rs` — the in-circuit verifier, embedded at value
    level (a main-gate `mul` is field multiplication, `add` is addition, …).

Pure functions become Lean functions over an abstract field `F`; fallible code
returns `Except`.  Modules of the repository that are not among the provided
sources (the `lagrange`, `fft` and `univariate` helpers, the random oracle,
the gate-evaluation framework) are modelled from the specification; each such
definition carries a doc comment starting with `Modelled from the spec:`.
-/

namespace Sirius

section PreludeDefs

variable {F : Type}

/-- Rust `usize::next_power_of_two`: the least power of two `≥ n`
(`1` for `n = 0` and `n = 1`).  Executable by repeated doubling; `n` doubling
steps always suffice because `2 ^ n ≥ n` for every `n`. -/
def nextPow2 (n : Nat) : Nat :=
  (List.range (n + 1)).foldl (fun acc _ => if acc < n then acc * 2 else acc) 1

/-- `iter::successors(Some(v), |d| d.pow([2])).take(len)` from `compute_F`,
and the value content of the in-circuit `calculate_exponentiation_sequence`
(`src/ivc/protogalaxy/mod.rs`): the list `[v, v², v⁴, …]` of length `len`,
each element the square of the previous one. -/
def calculate_exponentiation_sequence [Mul F] (v : F) : Nat → List F
  | 0 => []
  | n + 1 => v :: calculate_exponentiation_sequence (v * v) n

/-- The `j`-th element of the squaring sequence is `v ^ 2 ^ j`. -/
theorem calculate_exponentiation_sequence_getD [Monoid F] (v : F) (n j : Nat)
    (d : F) (hj : j < n) :
    (calculate_exponentiation_sequence v n).getD j d = v ^ 2 ^ j := by
  induction n generalizing v j with
  | zero => omega
  | succ n ih =>
    cases j with
    | zero => simp [calculate_exponentiation_sequence]
    | succ j =>
      have hrec := ih (v * v) j (by omega)
      simp only [calculate_exponentiation_sequence, List.getD_cons_succ]
      rw [hrec, ← sq, ← pow_mul, pow_succ, Nat.mul_comm]

theorem calculate_exponentiation_sequence_length [Mul F] (v : F) (n : Nat) :
    (calculate_exponentiation_sequence v n).length = n := by
  induction n generalizing v with
  | zero => rfl
  | succ n ih => simp [calculate_exponentiation_sequence, ih]

end PreludeDefs

section BetaStroke

variable {F : Type}

/-- Embedding of `BetaStrokeIter` (`src/nifs/protogalaxy/poly/mod.rs`):
the iterator owns `(betas, alpha, delta)`; each `next` yields
`betas[i] + alpha * delta`, then squares `delta` and advances `i`; it stops
when `i` reaches `betas.len()`.  Collecting the whole iterator gives this
list. -/
def iter_beta_stroke [Mul F] [Add F] (betas : List F) (alpha delta : F) :
    List F :=
  match betas with
  | [] => []
  | b :: rest => (b + alpha * delta) :: iter_beta_stroke rest alpha (delta * delta)

/-- Value content of the in-circuit `calculate_betas_stroke`
(`src/ivc/protogalaxy/mod.rs`): the squaring sequence of `delta` is assigned
by `calculate_exponentiation_sequence`, then each beta cell gets
`beta + alpha * delta_power` via one `mul` and one `add` gate. -/
def calculate_betas_stroke [Mul F] [Add F] (betas : List F) (alpha delta : F) :
    List F :=
  List.zipWith (fun beta delta_power => beta + alpha * delta_power) betas
    (calculate_exponentiation_sequence delta betas.length)

end BetaStroke

section BetaStrokeThm

variable {F : Type} [CommMonoid F] [Add F]

theorem iter_beta_stroke_length (betas : List F) (alpha delta : F) :
    (iter_beta_stroke betas alpha delta).length = betas.length := by
  induction betas generalizing delta with
  | nil => rfl
  | cons b rest ih => simp [iter_beta_stroke, ih]

theorem iter_beta_stroke_getD (betas : List F) (alpha delta : F) (i : Nat)
    (d : F) (hi : i < betas.length) :
    (iter_beta_stroke betas alpha delta).getD i d
      = betas.getD i d + alpha * delta ^ 2 ^ i := by
  induction betas generalizing delta i with
  | nil => simp at hi
  | cons b rest ih =>
    cases i with
    | zero => simp [iter_beta_stroke]
    | succ i =>
      have hrec := ih (delta * delta) i (by simpa using hi)
      simp only [iter_beta_stroke, List.getD_cons_succ]
      rw [hrec, ← sq, ← pow_mul, pow_succ, Nat.mul_comm]

theorem calculate_betas_stroke_eq_iter (betas : List F) (alpha delta : F) :
    calculate_betas_stroke betas alpha delta
      = iter_beta_stroke betas alpha delta := by
  unfold calculate_betas_stroke
  induction betas generalizing delta with
  | nil => rfl
  | cons b rest ih =>
    simp only [List.length_cons, calculate_exponentiation_sequence,
      List.zipWith_cons_cons, iter_beta_stroke]
    exact congrArg _ (ih (delta * delta))

/-- C4: the off-circuit `BetaStrokeIter` yields exactly `betas.len()` items,
the `i`-th of which is `betas[i] + alpha * delta ^ 2 ^ i`, and the in-circuit
`calculate_betas_stroke` assigns cells carrying exactly the same sequence of
values. -/
theorem beta_stroke_spec (betas : List F) (alpha delta : F) :
    (iter_beta_stroke betas alpha delta).length = betas.length
    ∧ (∀ i, i < betas.length →
        (iter_beta_stroke betas alpha delta).getD i (alpha * alpha)
          = betas.getD i (alpha * alpha) + alpha * delta ^ 2 ^ i)
    ∧ calculate_betas_stroke betas alpha delta
        = iter_beta_stroke betas alpha delta :=
  ⟨iter_beta_stroke_length betas alpha delta,
   fun i hi => iter_beta_stroke_getD betas alpha delta i _ hi,
   calculate_betas_stroke_eq_iter betas alpha delta⟩

/-- Witness for `beta_stroke_spec` at a concrete input. -/
theorem beta_stroke_spec_witness :
    (iter_beta_stroke [(2 : ZMod 17), 3, 5] 7 11).length = 3
    ∧ (∀ i, i < ([(2 : ZMod 17), 3, 5]).length →
        (iter_beta_stroke [(2 : ZMod 17), 3, 5] 7 11).getD i (7 * 7)
          = ([(2 : ZMod 17), 3, 5]).getD i (7 * 7) + 7 * 11 ^ 2 ^ i)
    ∧ calculate_betas_stroke [(2 : ZMod 17), 3, 5] 7 11
        = iter_beta_stroke [(2 : ZMod 17), 3, 5] 7 11 :=
  beta_stroke_spec [(2 : ZMod 17), 3, 5] 7 11

end BetaStrokeThm

section PolyPrimitives

variable {F : Type}

/-- Modelled from the spec: `UnivariatePoly::eval` (the `univariate` module is
not among the provided sources) — evaluation of the dense coefficient list by
Horner's rule from the highest index. -/
def UnivariatePoly.eval [Semiring F] (coeffs : List F) (x : F) : F :=
  coeffs.foldr (fun c acc => c + x * acc) 0

theorem UnivariatePoly.eval_eq_sum [CommSemiring F] (c : List F) (x : F) :
    UnivariatePoly.eval c x
      = ∑ i ∈ Finset.range c.length, c.getD i 0 * x ^ i := by
  induction c with
  | nil => simp [UnivariatePoly.eval]
  | cons a c ih =>
    rw [List.length_cons, Finset.sum_range_succ']
    simp only [List.getD_cons_succ, List.getD_cons_zero, pow_zero, mul_one]
    rw [show UnivariatePoly.eval (a :: c) x = a + x * UnivariatePoly.eval c x from rfl,
      ih, Finset.mul_sum]
    rw [add_comm]
    congr 1
    apply Finset.sum_congr rfl
    intro i _
    ring

/-- Modelled from the spec: `fft::ifft` (the `fft` module is not among the
provided sources) — a standard radix-2 inverse FFT over the cyclic subgroup
generated by `omega`; it computes the inverse DFT, i.e. coefficient `j` is
`n⁻¹ · Σ_t points[t] · ω^(−j·t)`, with `ω⁻¹` written as `ω^(n−1)`. -/
def fft.ifft [Field F] (omega : F) (points : List F) : List F :=
  (List.range points.length).map fun j =>
    (points.length : F)⁻¹
      * ∑ t ∈ Finset.range points.length,
          points.getD t 0 * (omega ^ (points.length - 1)) ^ (j * t)

theorem fft.ifft_length [Field F] (omega : F) (points : List F) :
    (fft.ifft omega points).length = points.length := by
  simp [fft.ifft]

theorem getD_map_range {α : Type} (f : Nat → α) (n j : Nat) (d : α)
    (hj : j < n) : ((List.range n).map f).getD j d = f j := by
  rw [List.getD_eq_getElem?_getD, List.getElem?_map, List.getElem?_range hj]
  rfl

theorem geom_sum_eq_zero_of_ne_one [Field F] (y : F) (n : Nat)
    (hy : y ^ n = 1) (h1 : y ≠ 1) :
    ∑ j ∈ Finset.range n, y ^ j = 0 := by
  have h := geom_sum_mul y n
  rw [hy, sub_self] at h
  rcases mul_eq_zero.mp h with h | h
  · exact h
  · exact absurd (sub_eq_zero.mp h) h1

theorem pow_eq_one_imp_dvd [Monoid F] (omega : F) (n : Nat)
    (h1 : omega ^ n = 1) (hprim : ∀ d, d < n → 0 < d → omega ^ d ≠ 1)
    (hn : 0 < n) (m : Nat) (hm : omega ^ m = 1) : n ∣ m := by
  have hmod : omega ^ (m % n) = 1 := by
    conv at hm => rw [← Nat.div_add_mod m n]
    rw [pow_add, pow_mul, h1, one_pow, one_mul] at hm
    exact hm
  rcases Nat.eq_zero_or_pos (m % n) with h | h
  · exact Nat.dvd_of_mod_eq_zero h
  · exact absurd hmod (hprim _ (Nat.mod_lt _ hn) h)

theorem not_dvd_shift (n t s : Nat) (ht : t < n) (hs : s < n) (hts : t ≠ s) :
    ¬ n ∣ ((n - 1) * t + s) := by
  intro hdvd
  have hA : (n - 1) * t + t = n * t := by
    have h1 : n - 1 + 1 = n := by omega
    calc (n - 1) * t + t = (n - 1 + 1) * t := by ring
    _ = n * t := by rw [h1]
  have hnt : n ∣ n * t := ⟨t, rfl⟩
  rcases Nat.lt_or_ge t s with h | h
  · have hd : n ∣ s - t := by
      have h2 : ((n - 1) * t + s) - (n * t) = s - t := by
        generalize hB : (n - 1) * t = B at hA ⊢
        generalize hC : n * t = C at hA ⊢
        omega
      have h3 := Nat.dvd_sub' hdvd hnt
      rwa [h2] at h3
    have := Nat.le_of_dvd (by omega) hd
    omega
  · have h3 : s < t := by omega
    have hd : n ∣ t - s := by
      have h2 : (n * t) - ((n - 1) * t + s) = t - s := by
        generalize hB : (n - 1) * t = B at hA ⊢
        generalize hC : n * t = C at hA ⊢
        omega
      have h4 := Nat.dvd_sub' hnt hdvd
      rwa [h2] at h4
    have := Nat.le_of_dvd (by omega) hd
    omega

/-- Inverse-DFT inversion: evaluating the polynomial produced by `fft.ifft`
at the `s`-th point `ω^s` of the domain recovers the `s`-th input sample. -/
theorem fft.ifft_eval [Field F] (omega : F) (points : List F) (s : Nat)
    (h1 : omega ^ points.length = 1)
    (hprim : ∀ d, d < points.length → 0 < d → omega ^ d ≠ 1)
    (hchar : (points.length : F) ≠ 0)
    (hs : s < points.length) :
    UnivariatePoly.eval (fft.ifft omega points) (omega ^ s)
      = points.getD s 0 := by
  set n := points.length with hn
  have hn0 : 0 < n := lt_of_le_of_lt (Nat.zero_le s) hs
  rw [UnivariatePoly.eval_eq_sum, fft.ifft_length]
  have hget : ∀ j, j < n → (fft.ifft omega points).getD j 0
      = (n : F)⁻¹ * ∑ t ∈ Finset.range n,
          points.getD t 0 * (omega ^ (n - 1)) ^ (j * t) := by
    intro j hj
    exact getD_map_range _ n j 0 hj
  have hterm : ∀ j t : Nat,
      (omega ^ (n - 1)) ^ (j * t) * (omega ^ s) ^ j
        = (omega ^ ((n - 1) * t + s)) ^ j := by
    intro j t
    have e1 : (omega ^ (n - 1)) ^ (j * t) = omega ^ ((n - 1) * (j * t)) :=
      (pow_mul omega (n - 1) (j * t)).symm
    have e2 : (omega ^ s) ^ j = omega ^ (s * j) := (pow_mul omega s j).symm
    have e3 : (omega ^ ((n - 1) * t + s)) ^ j
        = omega ^ (((n - 1) * t + s) * j) := (pow_mul omega _ j).symm
    rw [e1, e2, e3, ← pow_add]
    congr 1
    ring
  have hpow_n : ∀ t : Nat, (omega ^ ((n - 1) * t + s)) ^ n = 1 := by
    intro t
    rw [← pow_mul, Nat.mul_comm, pow_mul, h1, one_pow]
  calc
    ∑ j ∈ Finset.range n, (fft.ifft omega points).getD j 0 * (omega ^ s) ^ j
      = ∑ j ∈ Finset.range n, ∑ t ∈ Finset.range n,
          (n : F)⁻¹ * (points.getD t 0 * (omega ^ ((n - 1) * t + s)) ^ j) := by
        apply Finset.sum_congr rfl
        intro j hj
        rw [hget j (Finset.mem_range.mp hj), Finset.mul_sum, Finset.sum_mul]
        apply Finset.sum_congr rfl
        intro t _
        rw [← hterm j t]
        ring
    _ = ∑ t ∈ Finset.range n,
          (n : F)⁻¹ * points.getD t 0
            * ∑ j ∈ Finset.range n, (omega ^ ((n - 1) * t + s)) ^ j := by
        rw [Finset.sum_comm]
        apply Finset.sum_congr rfl
        intro t _
        rw [Finset.mul_sum]
        apply Finset.sum_congr rfl
        intro j _
        ring
    _ = points.getD s 0 := by
        rw [Finset.sum_eq_single_of_mem s (Finset.mem_range.mpr hs)]
        · have hys : omega ^ ((n - 1) * s + s) = 1 := by
            have hns : (n - 1) * s + s = n * s := by
              have hpred : n - 1 + 1 = n := Nat.succ_pred_eq_of_pos hn0
              calc (n - 1) * s + s = (n - 1 + 1) * s := by ring
              _ = n * s := by rw [hpred]
            rw [hns, pow_mul, h1, one_pow]
          rw [hys]
          simp only [one_pow, Finset.sum_const, Finset.card_range, nsmul_eq_mul,
            mul_one]
          field_simp
        · intro t htmem htne
          have hy1 : omega ^ ((n - 1) * t + s) ≠ 1 := by
            intro hcontra
            exact not_dvd_shift n t s (Finset.mem_range.mp htmem) hs htne
              (pow_eq_one_imp_dvd omega n h1 hprim hn0 _ hcontra)
          rw [geom_sum_eq_zero_of_ne_one _ n (hpow_n t) hy1, mul_zero]

end PolyPrimitives

section TreeReduction

variable {F : Type}

/-- One level of the balanced binary tree built by `Itertools::tree_reduce`
in `compute_F` (`src/nifs/protogalaxy/poly/mod.rs`): adjacent children
`(left, right)` of equal height combine to `left + right * c`, where `c` is
the challenge attached to that height. -/
def tree_level [Mul F] [Add F] (c : F) : List F → List F
  | [] => []
  | [a] => [a]
  | a :: b :: rest => (a + b * c) :: tree_level c rest

/-- The whole tree reduction of `compute_F`, level by level from the leaves:
level `h` combines with the `h`-th challenge.  On `2 ^ cs.length` leaves this
is exactly the balanced binary tree of `Itertools::tree_reduce` (the source
asserts equal child heights at every internal node, which forces this
power-of-two shape). -/
def tree_reduce [Mul F] [Add F] : List F → List F → List F
  | [], fs => fs
  | c :: cs, fs => tree_reduce cs (tree_level c fs)

/-- `pow_i`: the bits of `i` select the challenge factors (the direct formula
in the `compute_F` doc comment; also the test helper `pow_i` in
`src/nifs/protogalaxy/poly/mod.rs`): bit `j` of `i` selects `cs[j]`, a clear
bit contributes `1`. -/
def pow_i [Monoid F] : List F → Nat → F
  | [], _ => 1
  | c :: cs, i => (if i % 2 = 1 then c else 1) * pow_i cs (i / 2)

theorem tree_level_spec [Mul F] [Add F] [Zero F] (c : F) (k : Nat) :
    ∀ fs : List F, fs.length = 2 * k →
      (tree_level c fs).length = k
      ∧ ∀ i, i < k → (tree_level c fs).getD i 0
          = fs.getD (2 * i) 0 + fs.getD (2 * i + 1) 0 * c := by
  induction k with
  | zero =>
    intro fs hlen
    have : fs = [] := List.eq_nil_of_length_eq_zero (by omega)
    subst this
    exact ⟨rfl, fun i hi => by omega⟩
  | succ k ih =>
    intro fs hlen
    match fs with
    | [] => simp at hlen
    | [a] => simp at hlen; omega
    | a :: b :: rest =>
      have hrest : rest.length = 2 * k := by
        simp only [List.length_cons] at hlen
        omega
      obtain ⟨ihl, ihg⟩ := ih rest hrest
      constructor
      · simp only [tree_level, List.length_cons, ihl]
      · intro i hi
        cases i with
        | zero => simp [tree_level]
        | succ i =>
          have h2 : 2 * (i + 1) = (2 * i + 1) + 1 := by ring
          rw [h2]
          simp only [tree_level, List.getD_cons_succ]
          exact ihg i (by omega)

theorem sum_range_two_mul {M : Type} [AddCommMonoid M] (k : Nat)
    (g : Nat → M) :
    ∑ i ∈ Finset.range (2 * k), g i
      = ∑ i ∈ Finset.range k, (g (2 * i) + g (2 * i + 1)) := by
  induction k with
  | zero => simp
  | succ k ih =>
    have h2 : 2 * (k + 1) = (2 * k + 1) + 1 := by ring
    rw [h2, Finset.sum_range_succ, Finset.sum_range_succ, ih,
      Finset.sum_range_succ, add_assoc]

/-- Root of the reduction tree as the bit-selected direct sum. -/
theorem tree_reduce_headD [CommRing F] :
    ∀ cs fs : List F, fs.length = 2 ^ cs.length →
      (tree_reduce cs fs).headD 0
        = ∑ i ∈ Finset.range (2 ^ cs.length), pow_i cs i * fs.getD i 0 := by
  intro cs
  induction cs with
  | nil =>
    intro fs hlen
    match fs with
    | [a] =>
      simp [tree_reduce, pow_i]
    | [] => simp at hlen
    | a :: b :: rest => simp at hlen
  | cons c cs ih =>
    intro fs hlen
    have hlen2 : fs.length = 2 * 2 ^ cs.length := by
      rw [hlen, List.length_cons, pow_succ, Nat.mul_comm]
    obtain ⟨hl, hg⟩ := tree_level_spec c (2 ^ cs.length) fs hlen2
    have hstep : tree_reduce (c :: cs) fs = tree_reduce cs (tree_level c fs) :=
      rfl
    rw [hstep, ih (tree_level c fs) hl]
    have hsplit : (2 : Nat) ^ (c :: cs).length = 2 * 2 ^ cs.length := by
      rw [List.length_cons, pow_succ, Nat.mul_comm]
    rw [hsplit, sum_range_two_mul]
    apply Finset.sum_congr rfl
    intro i hi
    have hmem := Finset.mem_range.mp hi
    rw [hg i hmem]
    have hpe : pow_i (c :: cs) (2 * i) = pow_i cs i := by
      simp only [pow_i, Nat.mul_mod_right]
      rw [Nat.mul_div_cancel_left i (by omega : 0 < 2)]
      simp
    have hpo : pow_i (c :: cs) (2 * i + 1) = c * pow_i cs i := by
      simp only [pow_i]
      have hmod : (2 * i + 1) % 2 = 1 := by omega
      have hdiv : (2 * i + 1) / 2 = i := by omega
      rw [hmod, hdiv]
      simp
    rw [hpe, hpo]
    ring

end TreeReduction

section ComputeF

variable {F : Type}

/-- Embedding of `compute_F` (`src/nifs/protogalaxy/poly/mod.rs`).

The PLONK structure `S` and the trace enter only through `fs`: the sequence
of gate evaluations produced by the external `plonk::iter_evaluate_witness`;
the source chains zeros onto it and takes
`count_of_evaluation_with_padding = 2 ^ m` elements, with
`m = ctx.betas_count()` (and the source asserts `betas.len() == m`).
Here `m := betas.length`.  `omega` generates the F-domain cyclic subgroup of
size `fft_points_count_F = nextPow2 (m + 1)` — the external
`lagrange::iter_cyclic_subgroup` — and the same subgroup drives `fft.ifft`.
The `Result` plumbing of the leaves (error short-circuiting) is orthogonal to
this claim and omitted: `fs` is a successfully evaluated gate sequence. -/
def compute_F [Field F] (omega : F) (betas : List F) (delta : F)
    (fs : List F) : List F :=
  fft.ifft omega
    ((List.range (nextPow2 (betas.length + 1))).map fun t =>
      (tree_reduce
        (List.zipWith (fun beta d => beta + omega ^ t * d) betas
          (calculate_exponentiation_sequence delta betas.length))
        ((fs ++ List.replicate (2 ^ betas.length) 0).take
          (2 ^ betas.length))).headD 0)

/-- The factor list of the C1 direct formula: the `j`-th factor available to
`pow_i` at evaluation point `X` is `betas[j] + X * delta ^ 2 ^ j`. -/
def direct_factors [Field F] (betas : List F) (delta X : F) : List F :=
  (List.range betas.length).map fun j => betas.getD j 0 + X * delta ^ 2 ^ j

theorem challenges_eq_direct_factors [Field F] (betas : List F)
    (delta X : F) :
    List.zipWith (fun beta d => beta + X * d) betas
        (calculate_exponentiation_sequence delta betas.length)
      = direct_factors betas delta X := by
  apply List.ext_getElem
  · simp [direct_factors, calculate_exponentiation_sequence_length]
  · intro i h1 h2
    have hib : i < betas.length := by
      simpa [calculate_exponentiation_sequence_length] using h1
    have hces : (calculate_exponentiation_sequence delta betas.length).getD
        i delta = delta ^ 2 ^ i :=
      calculate_exponentiation_sequence_getD delta betas.length i delta hib
    rw [List.getD_eq_getElem _ _
      (by rw [calculate_exponentiation_sequence_length]; exact hib)] at hces
    simp only [List.getElem_zipWith, direct_factors, List.getElem_map,
      List.getElem_range, hces]
    rw [List.getD_eq_getElem _ _ hib]

/-- C1: for every beta vector, `delta` and gate-evaluation sequence, the
polynomial returned by the tree-reduction `compute_F`, evaluated at any point
`ω^t` of the F-domain, equals the direct (non-tree) formula
`Σ_i pow_i(β + X₀·δ) · f_i`, where `f_i` is the `i`-th gate evaluation padded
with zeros to `count_of_evaluation_with_padding = 2 ^ m` and `pow_i` uses the
bits of `i` to select the factors `β_j + X₀ · δ^(2^j)`.  (`0 < betas.length`:
on a single-leaf tree the source hits its `unreachable!` branch instead of
returning.) -/
theorem compute_F_eval_eq_direct [Field F] (omega : F) (betas : List F)
    (delta : F) (fs : List F) (t : Nat)
    (hm : 0 < betas.length)
    (h1 : omega ^ nextPow2 (betas.length + 1) = 1)
    (hprim : ∀ d, d < nextPow2 (betas.length + 1) → 0 < d → omega ^ d ≠ 1)
    (hchar : ((nextPow2 (betas.length + 1) : Nat) : F) ≠ 0)
    (ht : t < nextPow2 (betas.length + 1)) :
    UnivariatePoly.eval (compute_F omega betas delta fs) (omega ^ t)
      = ∑ i ∈ Finset.range (2 ^ betas.length),
          pow_i (direct_factors betas delta (omega ^ t)) i
            * ((fs ++ List.replicate (2 ^ betas.length) 0).take
                (2 ^ betas.length)).getD i 0 := by
  have hplen : ((List.range (nextPow2 (betas.length + 1))).map fun tt =>
      (tree_reduce
        (List.zipWith (fun beta d => beta + omega ^ tt * d) betas
          (calculate_exponentiation_sequence delta betas.length))
        ((fs ++ List.replicate (2 ^ betas.length) 0).take
          (2 ^ betas.length))).headD 0).length
      = nextPow2 (betas.length + 1) := by
    simp
  rw [compute_F, fft.ifft_eval _ _ t (by rw [hplen]; exact h1)
    (by rw [hplen]; exact hprim) (by rw [hplen]; exact hchar)
    (by rw [hplen]; exact ht)]
  rw [getD_map_range _ _ t 0 ht]
  have hcs : (List.zipWith (fun beta d => beta + omega ^ t * d) betas
      (calculate_exponentiation_sequence delta betas.length)).length
      = betas.length := by
    simp [calculate_exponentiation_sequence_length]
  have hpadlen : ((fs ++ List.replicate (2 ^ betas.length) 0).take
      (2 ^ betas.length)).length = 2 ^ betas.length := by
    simp only [List.length_take, List.length_append, List.length_replicate]
    omega
  rw [tree_reduce_headD _ _ (by rw [hpadlen, hcs]), hcs,
    challenges_eq_direct_factors]

instance fact_prime_17 : Fact (Nat.Prime 17) := ⟨by norm_num⟩

/-- Witness for `compute_F_eval_eq_direct` at a concrete input: field
`ZMod 17`, one beta (`m = 1`, so the F-domain has `nextPow2 2 = 2` points),
primitive square root of unity `ω = 16 = −1`, evaluated at `t = 1`. -/
theorem compute_F_eval_eq_direct_witness :
    UnivariatePoly.eval (compute_F (16 : ZMod 17) [3] 5 [7, 11])
        ((16 : ZMod 17) ^ 1)
      = ∑ i ∈ Finset.range (2 ^ [(3 : ZMod 17)].length),
          pow_i (direct_factors [(3 : ZMod 17)] 5 ((16 : ZMod 17) ^ 1)) i
            * (([7, 11] ++ List.replicate (2 ^ [(3 : ZMod 17)].length) 0).take
                (2 ^ [(3 : ZMod 17)].length)).getD i 0 :=
  compute_F_eval_eq_direct (16 : ZMod 17) [3] 5 [7, 11] 1
    (by decide) (by decide) (by decide) (by decide) (by decide)

end ComputeF

section PolyContextDefs

variable {F : Type}

/-- Embedding of `PolyContext` (`src/nifs/protogalaxy/poly/mod.rs`): the size
parameters derived from the PLONK structure `S` and the incoming traces. -/
structure PolyContext where
  instances_to_fold : Nat
  fft_points_count_G : Nat
  count_of_evaluation_with_padding : Nat

/-- `get_count_of_valuation`: `2 ^ S.k` rows times the number of gates. -/
def get_count_of_valuation (k_table_size gates_len : Nat) : Nat :=
  2 ^ k_table_size * gates_len

/-- `PolyContext::new`: `instances_to_fold = traces.len() + 1` (the source
asserts it is a power of two — a hypothesis of the theorems below),
`fft_points_count_G = (traces_len * max_degree + 1).next_power_of_two()`
(from `get_points_count`, `max_degree` being the maximal gate degree), and
the zero-padded evaluation count. -/
def PolyContext.new (k_table_size gates_len max_degree traces_len : Nat) :
    PolyContext where
  instances_to_fold := traces_len + 1
  fft_points_count_G := nextPow2 (traces_len * max_degree + 1)
  count_of_evaluation_with_padding :=
    nextPow2 (get_count_of_valuation k_table_size gates_len)

/-- `PolyContext::fft_log_domain_size_K`, transcribed exactly from the
source: `fft_points_count_G.add(1).saturating_sub(instances_to_fold)
.next_power_of_two() as u32`.  Note that, unlike `fft_log_domain_size_G`,
the source takes no `ilog2` here, although the result is consumed as a
log-size. -/
def PolyContext.fft_log_domain_size_K (ctx : PolyContext) : Nat :=
  nextPow2 (ctx.fft_points_count_G + 1 - ctx.instances_to_fold)

/-- `PolyContext::lagrange_domain`: `instances_to_fold.ilog2()`. -/
def PolyContext.lagrange_domain (ctx : PolyContext) : Nat :=
  Nat.log2 ctx.instances_to_fold

/-- Modelled from the spec: `lagrange::iter_cyclic_subgroup` (the `lagrange`
module is not among the provided sources) — the cyclic subgroup
`{1, ω, ω², …}` of order `2 ^ log_n` generated by `omega`. -/
def iter_cyclic_subgroup [Monoid F] (omega : F) (log_n : Nat) : List F :=
  (List.range (2 ^ log_n)).map fun i => omega ^ i

/-- Modelled from the spec: `lagrange::eval_vanish_polynomial` — the
vanishing polynomial `Z(X) = Xⁿ − 1` of the cyclic subgroup. -/
def eval_vanish_polynomial [Ring F] (degree : Nat) (X : F) : F :=
  X ^ degree - 1

/-- Modelled from the spec: the first element of
`lagrange::iter_eval_lagrange_poly_for_cyclic_group(X, lagrange_domain)` —
`L₀(X) = (ω⁰/n)·(Xⁿ−1)/(X−ω⁰)` with `ω⁰ = 1`, and value `1` in the `0/0`
edge case `X = 1`. -/
def eval_lagrange_poly_L0 [Field F] [DecidableEq F] (lagrange_domain : Nat) (X : F) : F :=
  if X = 1 then 1
  else ((2 ^ lagrange_domain : Nat) : F)⁻¹
    * (X ^ 2 ^ lagrange_domain - 1) / (X - 1)

/-- Modelled from the spec: `UnivariatePoly::coset_ifft` — apply `ifft`,
then multiply coefficient `i` by `ζ⁻ⁱ`. -/
def UnivariatePoly.coset_ifft [Field F] (omega zeta : F)
    (points : List F) : List F :=
  List.zipWith (fun c z => c * z) (fft.ifft omega points)
    ((List.range points.length).map fun i => zeta⁻¹ ^ i)

/-- The per-sample quotient inside `compute_K_from_G`
(`src/nifs/protogalaxy/poly/mod.rs`):
`K(X) = (G(X) − F(α)·L₀(X)) · Z(X)⁻¹`.  The source inverts `Z(X)` with
`.invert().expect("Z(X) must be not equal to 0")`; in Lean `⁻¹` is total
with `0⁻¹ = 0`. -/
def poly_K_sample [Field F] (instances_to_fold : Nat)
    (poly_G_in_X poly_F_in_alpha poly_L0_in_X X : F) : F :=
  (poly_G_in_X - poly_F_in_alpha * poly_L0_in_X)
    * (eval_vanish_polynomial instances_to_fold X)⁻¹

/-- Embedding of `compute_K_from_G` (`src/nifs/protogalaxy/poly/mod.rs`):
iterate the cyclic subgroup of order `2 ^ ctx.fft_log_domain_size_K()`
(`omega` is its generator), multiply each element by `ζ` to land on a coset,
evaluate the quotient samples, and recover coefficients via `coset_ifft`. -/
def compute_K_from_G [Field F] [DecidableEq F] (omega zeta : F) (ctx : PolyContext)
    (poly_G : List F) (poly_F_in_alpha : F) : List F :=
  UnivariatePoly.coset_ifft omega zeta
    ((iter_cyclic_subgroup omega ctx.fft_log_domain_size_K).map fun X0 =>
      poly_K_sample ctx.instances_to_fold
        (UnivariatePoly.eval poly_G (zeta * X0)) poly_F_in_alpha
        (eval_lagrange_poly_L0 ctx.lagrange_domain (zeta * X0)) (zeta * X0))

end PolyContextDefs

section ComputeKThms

variable {F : Type}

instance fact_prime_13 : Fact (Nat.Prime 13) := ⟨by norm_num⟩

/-- C2 (counterexample to the claimed coefficient count): at the concrete
context `PolyContext.new 2 1 2 1` (four rows, one gate of degree 2, one
incoming trace, so `instances_to_fold = 2` and G-domain size
`nextPow2 (1·2+1) = 4`), the claim says the polynomial returned by
`compute_K_from_G` has `next_pow2(G + 1 − instances_to_fold) = 4`
coefficients; the code returns `2 ^ fft_log_domain_size_K = 2 ^ 4 = 16` of
them, because `fft_log_domain_size_K` omits the `ilog2` that
`fft_log_domain_size_G` takes and its result is consumed as a log-size by
`iter_cyclic_subgroup`. -/
theorem compute_K_from_G_length_diverges :
    (compute_K_from_G (2 : ZMod 13) 3 (PolyContext.new 2 1 2 1) [1] 1).length
      = 16
    ∧ nextPow2 ((PolyContext.new 2 1 2 1).fft_points_count_G + 1
        - (PolyContext.new 2 1 2 1).instances_to_fold) = 4 := by
  constructor
  · simp only [compute_K_from_G, UnivariatePoly.coset_ifft,
      List.length_zipWith, fft.ifft_length, List.length_map,
      List.length_range, iter_cyclic_subgroup]
    decide
  · decide

/-- C3: every evaluation point used by `compute_K_from_G` has the form
`ζ·X` with `ζ` a primitive cube root of unity and `X` in a 2-power cyclic
subgroup; there the vanishing polynomial
`Z(ζX) = (ζX)^instances_to_fold − 1` (with `instances_to_fold = 2 ^ ld` a
power of two, as asserted by `PolyContext::new`) is nonzero, so the field
inversion inside `poly_K_sample` never hits zero and the per-sample identity
`F(α)·L₀(X) + Z(X)·K(X) = G(X)` asserted by the source holds. -/
theorem compute_K_sample_safe [Field F] (zeta X : F)
    (hz3 : zeta ^ 3 = 1) (hz1 : zeta ≠ 1) (k ld : Nat)
    (hX : X ^ 2 ^ k = 1) (G Falpha L0 : F) :
    eval_vanish_polynomial (2 ^ ld) (zeta * X) ≠ 0
    ∧ Falpha * L0 + eval_vanish_polynomial (2 ^ ld) (zeta * X)
        * poly_K_sample (2 ^ ld) G Falpha L0 (zeta * X) = G := by
  have hZ : eval_vanish_polynomial (2 ^ ld) (zeta * X) ≠ 0 := by
    rw [eval_vanish_polynomial, sub_ne_zero]
    intro hcontra
    rw [mul_pow] at hcontra
    have ha3 : (zeta ^ 2 ^ ld) ^ 3 = 1 := by
      rw [← pow_mul, Nat.mul_comm, pow_mul, hz3, one_pow]
    have hb : (X ^ 2 ^ ld) ^ 2 ^ k = 1 := by
      rw [← pow_mul, Nat.mul_comm, pow_mul, hX, one_pow]
    have hak : (zeta ^ 2 ^ ld) ^ 2 ^ k = 1 := by
      have h1 : (zeta ^ 2 ^ ld * X ^ 2 ^ ld) ^ 2 ^ k = 1 := by
        rw [hcontra, one_pow]
      rw [mul_pow, hb, mul_one] at h1
      exact h1
    have hcop : Nat.Coprime 3 (2 ^ k) :=
      Nat.Coprime.pow_right k (by decide)
    have ha1 : zeta ^ 2 ^ ld = 1 := by
      have hd : orderOf (zeta ^ 2 ^ ld) ∣ Nat.gcd 3 (2 ^ k) :=
        Nat.dvd_gcd (orderOf_dvd_of_pow_eq_one ha3)
          (orderOf_dvd_of_pow_eq_one hak)
      rw [hcop] at hd
      exact orderOf_eq_one_iff.mp (Nat.dvd_one.mp hd)
    have hcop2 : Nat.Coprime 3 (2 ^ ld) :=
      Nat.Coprime.pow_right ld (by decide)
    have hzeta1 : zeta = 1 := by
      have hd : orderOf zeta ∣ Nat.gcd 3 (2 ^ ld) :=
        Nat.dvd_gcd (orderOf_dvd_of_pow_eq_one hz3)
          (orderOf_dvd_of_pow_eq_one ha1)
      rw [hcop2] at hd
      exact orderOf_eq_one_iff.mp (Nat.dvd_one.mp hd)
    exact hz1 hzeta1
  refine ⟨hZ, ?_⟩
  rw [poly_K_sample, mul_comm (G - Falpha * L0), ← mul_assoc,
    mul_inv_cancel₀ hZ, one_mul]
  ring

/-- Witness for `compute_K_sample_safe`: `ZMod 13`, `ζ = 3`
(a primitive cube root of unity), `X = 5` (an element of order 4). -/
theorem compute_K_sample_safe_witness :
    eval_vanish_polynomial (2 ^ 1) ((3 : ZMod 13) * 5) ≠ 0
    ∧ (2 : ZMod 13) * 6 + eval_vanish_polynomial (2 ^ 1) ((3 : ZMod 13) * 5)
        * poly_K_sample (2 ^ 1) 4 2 6 ((3 : ZMod 13) * 5) = 4 :=
  compute_K_sample_safe (3 : ZMod 13) 5 (by decide) (by decide) 2 1
    (by decide) 4 2 6

end ComputeKThms

section ComputeG

variable {F : Type}

/-- The error type of the `poly` module (`src/nifs/protogalaxy/poly/mod.rs`):
a transparently wrapped gate-evaluation error, or `EmptyTracesNotAllowed`
("You can't fold 0 traces").  `E` is the external `eval::Error` type. -/
inductive PolyError (E : Type) where
  | Eval : E → PolyError E
  | EmptyTracesNotAllowed : PolyError E
deriving DecidableEq

/-- `util::TryMultiProduct` item assembly: one value per trace column, or
the first error among them. -/
def collect_except {E A : Type} : List (Except E A) → Except E (List A)
  | [] => .ok []
  | x :: xs => do
      let v ← x
      let vs ← collect_except xs
      pure (v :: vs)

/-- The per-leaf nodes of `compute_G`: for leaf index `i`, pull the `i`-th
gate evaluation of every per-X folded-witness stream (each padded with
`Ok(0)` and truncated to `count` by `chain(repeat(Ok(ZERO))).take(count)`),
failing on the first evaluation error. -/
def folded_leaves {E : Type} [Zero F] (count : Nat)
    (per_X : List (List (Except E F))) : List (Except E (List F)) :=
  (List.range count).map fun i =>
    collect_except (per_X.map fun evals =>
      ((evals ++ List.replicate count (Except.ok 0)).take count).getD i
        (Except.ok 0))

/-- One level of the `compute_G` tree: nodes carry one value per evaluation
point `X`; children of equal height combine pointwise as
`left + right * betas_stroke[h]`; errors short-circuit. -/
def tree_level_G {E : Type} [Mul F] [Add F] (c : F) :
    List (Except E (List F)) → List (Except E (List F))
  | [] => []
  | [a] => [a]
  | a :: b :: rest =>
      (do
        let l ← a
        let r ← b
        pure (List.zipWith (fun x y => x + y * c) l r)) :: tree_level_G c rest

/-- The `tree_reduce` of `compute_G`, level by level, consuming one
`betas_stroke` entry per level. -/
def tree_reduce_G {E : Type} [Mul F] [Add F] :
    List F → List (Except E (List F)) → List (Except E (List F))
  | [], ns => ns
  | c :: cs, ns => tree_reduce_G cs (tree_level_G c ns)

/-- Embedding of `compute_G` (`src/nifs/protogalaxy/poly/mod.rs`).

The folded-witness machinery and gate evaluation are external
(`FoldedWitness`, `plonk::iter_evaluate_witness`); they enter through
`eval_folded_witness`, which maps an evaluation point `X` of the G-domain to
the gate-evaluation stream of the folded trace at `X`.  `traces` is the
incoming-trace slice; beyond feeding the folded witness (which also takes
the accumulator), only its emptiness is inspected here.  The `none` branch
of the final match is the source's `unreachable!` (it needs zero leaves,
while `count_of_evaluation_with_padding ≥ 1`). -/
def compute_G {T E : Type} [Field F] (omega : F) (ctx : PolyContext)
    (betas_stroke : List F) (eval_folded_witness : F → List (Except E F))
    (traces : List T) : Except (PolyError E) (List F) :=
  if traces.isEmpty then .error .EmptyTracesNotAllowed
  else
    match (tree_reduce_G betas_stroke
        (folded_leaves ctx.count_of_evaluation_with_padding
          (((iter_cyclic_subgroup omega
              (Nat.log2 ctx.fft_points_count_G)).take
            ctx.fft_points_count_G).map eval_folded_witness))).head? with
    | some (.ok points) => .ok (fft.ifft omega points)
    | some (.error e) => .error (.Eval e)
    | none => .ok []

/-- C5: `compute_G` returns `EmptyTracesNotAllowed` iff the incoming trace
slice is empty; on a non-empty slice every outcome is `Ok` or a propagated
`Eval` error, never `EmptyTracesNotAllowed`. -/
theorem compute_G_empty_traces_iff {T E : Type} [Field F] (omega : F)
    (ctx : PolyContext) (betas_stroke : List F)
    (eval_folded_witness : F → List (Except E F)) (traces : List T) :
    compute_G omega ctx betas_stroke eval_folded_witness traces
        = .error .EmptyTracesNotAllowed
      ↔ traces = [] := by
  constructor
  · intro h
    by_contra hne
    rw [compute_G, if_neg (by simpa using hne)] at h
    split at h <;> simp_all
  · intro h
    subst h
    simp [compute_G]

end ComputeG

section Sps

/-- The error type of `src/sps.rs` restricted to what `sps_verify` can
produce. -/
inductive SpsError where
  | ChallengeNotMatch : Nat → SpsError
deriving DecidableEq

/-- The random-oracle interface consumed by `sps_verify` (`ROTrait` is
external): `R` is the sponge state, `B` the base field, `P` curve points,
`C` the scalar challenge type.  `squeeze` returns the
`NUM_CHALLENGE_BITS`-truncated scalar together with the advanced state. -/
structure SpsRO (R B P C : Type) where
  absorb_field_iter : R → List B → R
  absorb_point : R → P → R
  squeeze : R → C × R

/-- `PlonkInstance` as consumed by `src/sps.rs`: per-round commitments,
public-input vectors, per-round challenges (invariant:
`W_commitments.len() == challenges.len()`). -/
structure PlonkInstance (P C : Type) where
  W_commitments : List P
  instances : List (List C)
  challenges : List C

/-- The round loop of `sps_verify`: absorb `W_commitments[i]`, squeeze the
bit-truncated scalar, compare with `challenges[i]`; fail with
`ChallengeNotMatch` at the first mismatching index. -/
def sps_rounds {R B P C : Type} [DecidableEq C] (ro : SpsRO R B P C) :
    R → List (P × C) → Nat → Except SpsError Unit
  | _, [], _ => .ok ()
  | r, (w, c) :: rest, i =>
      let st := ro.squeeze (ro.absorb_point r w)
      if st.1 = c then sps_rounds ro st.2 rest (i + 1)
      else .error (.ChallengeNotMatch i)

/-- Embedding of `PlonkInstance::sps_verify` (`src/sps.rs`).
`scalar_to_base` is the external `ScalarToBase` reinterpretation.  The
source indexes `W_commitments[i]` for `i < challenges.len()`; the `zip`
realizes this under the length invariant (a hypothesis of the theorem). -/
def sps_verify {R B P C : Type} [DecidableEq C] (ro : SpsRO R B P C)
    (scalar_to_base : C → B) (pi : PlonkInstance P C) (r0 : R) :
    Except SpsError Unit :=
  if pi.challenges.length = 0 then .ok ()
  else
    sps_rounds ro
      (ro.absorb_field_iter r0 (pi.instances.flatten.map scalar_to_base))
      (pi.W_commitments.zip pi.challenges) 0

/-- The challenge sequence an honest verifier would re-derive: squeeze once
after absorbing each commitment, threading the sponge state. -/
def sps_derived {R B P C : Type} (ro : SpsRO R B P C) : R → List P → List C
  | _, [] => []
  | r, w :: ws =>
      let st := ro.squeeze (ro.absorb_point r w)
      st.1 :: sps_derived ro st.2 ws

theorem sps_rounds_ok_iff {R B P C : Type} [DecidableEq C]
    (ro : SpsRO R B P C) :
    ∀ (pairs : List (P × C)) (r : R) (i : Nat),
      sps_rounds ro r pairs i = .ok ()
        ↔ sps_derived ro r (pairs.map Prod.fst) = pairs.map Prod.snd := by
  intro pairs
  induction pairs with
  | nil => intro r i; simp [sps_rounds, sps_derived]
  | cons p rest ih =>
    intro r i
    obtain ⟨w, c⟩ := p
    simp only [sps_rounds, sps_derived, List.map_cons, List.cons.injEq]
    by_cases hch : (ro.squeeze (ro.absorb_point r w)).1 = c
    · rw [if_pos hch, ih]
      simp [hch]
    · rw [if_neg hch]
      simp [hch]

theorem sps_rounds_err_iff {R B P C : Type} [DecidableEq C]
    (ro : SpsRO R B P C) :
    ∀ (pairs : List (P × C)) (r : R) (i k : Nat),
      sps_rounds ro r pairs i = .error (.ChallengeNotMatch k)
        ↔ ∃ j, k = i + j
            ∧ (sps_derived ro r (pairs.map Prod.fst))[j]?
                ≠ (pairs.map Prod.snd)[j]?
            ∧ ∀ l, l < j →
                (sps_derived ro r (pairs.map Prod.fst))[l]?
                  = (pairs.map Prod.snd)[l]? := by
  intro pairs
  induction pairs with
  | nil =>
    intro r i k
    simp [sps_rounds, sps_derived]
  | cons p rest ih =>
    intro r i k
    obtain ⟨w, c⟩ := p
    simp only [sps_rounds, sps_derived, List.map_cons]
    by_cases hch : (ro.squeeze (ro.absorb_point r w)).1 = c
    · rw [if_pos hch, ih]
      constructor
      · rintro ⟨j, hk, hne, hpre⟩
        refine ⟨j + 1, by omega, by simpa using hne, ?_⟩
        intro l hl
        cases l with
        | zero => simp [hch]
        | succ l => simpa using hpre l (by omega)
      · rintro ⟨j, hk, hne, hpre⟩
        cases j with
        | zero => simp [hch] at hne
        | succ j =>
          refine ⟨j, by omega, by simpa using hne, ?_⟩
          intro l hl
          simpa using hpre (l + 1) (by omega)
    · rw [if_neg hch]
      constructor
      · intro h
        have hk : k = i := by
          have := Except.error.inj h
          cases this
          rfl
        refine ⟨0, by omega, by simp [hch], by omega⟩
      · rintro ⟨j, hk, hne, hpre⟩
        cases j with
        | zero => simp [hk]
        | succ j =>
          exfalso
          have h0 := hpre 0 (by omega)
          simp [hch] at h0

/-- C6: `sps_verify` returns `Ok` when the instance has zero challenges;
otherwise it absorbs the public instance values and re-derives one truncated
challenge per round (absorbing `W_commitments[i]` before each squeeze); it
fails with `ChallengeNotMatch` carrying the index of the first round whose
re-derived challenge differs from `challenges[i]`, and returns `Ok` exactly
when every round matches. -/
theorem sps_verify_spec {R B P C : Type} [DecidableEq C] (ro : SpsRO R B P C)
    (scalar_to_base : C → B) (pi : PlonkInstance P C) (r0 : R)
    (hlen : pi.W_commitments.length = pi.challenges.length) :
    (pi.challenges = [] → sps_verify ro scalar_to_base pi r0 = .ok ())
    ∧ (sps_verify ro scalar_to_base pi r0 = .ok ()
        ↔ sps_derived ro
            (ro.absorb_field_iter r0 (pi.instances.flatten.map scalar_to_base))
            pi.W_commitments = pi.challenges)
    ∧ ∀ k, (sps_verify ro scalar_to_base pi r0
          = .error (.ChallengeNotMatch k)
        ↔ ((sps_derived ro
              (ro.absorb_field_iter r0
                (pi.instances.flatten.map scalar_to_base))
              pi.W_commitments)[k]? ≠ pi.challenges[k]?
            ∧ ∀ l, l < k →
              (sps_derived ro
                (ro.absorb_field_iter r0
                  (pi.instances.flatten.map scalar_to_base))
                pi.W_commitments)[l]? = pi.challenges[l]?)) := by
  have hfst : (pi.W_commitments.zip pi.challenges).map Prod.fst
      = pi.W_commitments := List.map_fst_zip _ _ (le_of_eq hlen)
  have hsnd : (pi.W_commitments.zip pi.challenges).map Prod.snd
      = pi.challenges := List.map_snd_zip _ _ (ge_of_eq hlen)
  by_cases hc : pi.challenges.length = 0
  · have hcnil : pi.challenges = [] := List.length_eq_zero.mp hc
    have hwnil : pi.W_commitments = [] := List.length_eq_zero.mp (by omega)
    refine ⟨fun _ => by rw [sps_verify, if_pos hc], ?_, ?_⟩
    · rw [sps_verify, if_pos hc, hcnil, hwnil]
      simp [sps_derived]
    · intro k
      rw [sps_verify, if_pos hc, hcnil, hwnil]
      simp [sps_derived]
  · refine ⟨fun hnil => absurd (by rw [hnil]; rfl) hc, ?_, ?_⟩
    · rw [sps_verify, if_neg hc, sps_rounds_ok_iff, hfst, hsnd]
    · intro k
      rw [sps_verify, if_neg hc, sps_rounds_err_iff, hfst, hsnd]
      constructor
      · rintro ⟨j, hk, hne, hpre⟩
        subst hk
        simp only [Nat.zero_add]
        exact ⟨hne, hpre⟩
      · rintro ⟨hne, hpre⟩
        exact ⟨k, by omega, hne, hpre⟩

/-- Witness for `sps_verify_spec`: a toy sponge over `Nat` (`absorb` adds,
`squeeze` returns the state and increments it) and an instance with two
rounds. -/
theorem sps_verify_spec_witness :
    (let ro : SpsRO Nat Nat Nat Nat :=
      ⟨fun r bs => r + bs.length, fun r p => r + p, fun r => (r, r + 1)⟩
     let pi : PlonkInstance Nat Nat := ⟨[2, 3], [[5]], [7, 11]⟩
     (pi.challenges = [] → sps_verify ro id pi 0 = .ok ())
     ∧ (sps_verify ro id pi 0 = .ok ()
         ↔ sps_derived ro
             (ro.absorb_field_iter 0 (pi.instances.flatten.map id))
             pi.W_commitments = pi.challenges)
     ∧ ∀ k, (sps_verify ro id pi 0 = .error (.ChallengeNotMatch k)
         ↔ ((sps_derived ro
               (ro.absorb_field_iter 0 (pi.instances.flatten.map id))
               pi.W_commitments)[k]? ≠ pi.challenges[k]?
             ∧ ∀ l, l < k →
               (sps_derived ro
                 (ro.absorb_field_iter 0 (pi.instances.flatten.map id))
                 pi.W_commitments)[l]? = pi.challenges[l]?))) :=
  sps_verify_spec
    ⟨fun r bs => r + bs.length, fun r p => r + p, fun r => (r, r + 1)⟩
    id ⟨[2, 3], [[5]], [7, 11]⟩ 0 (by decide)

end Sps

section InCircuit

variable {F : Type}

/-- Value-level `ValuePowers` (`src/ivc/protogalaxy/mod.rs`): the in-circuit
cache of assigned powers `x⁰ = 1, x¹ = value, x², …`. -/
structure ValuePowers (F : Type) where
  value : F
  powers : List F

/-- `ValuePowers::new`: seeds the cache with `[one, value]`.  The source
asserts that the known value of the supplied `one` cell equals `F::ONE` and
panics otherwise; the panic is modelled as `none` (at value level every cell
value is known). -/
def ValuePowers.new [One F] [DecidableEq F] (one value : F) :
    Option (ValuePowers F) :=
  if one = 1 then some ⟨value, [one, value]⟩ else none

/-- The `while` loop of `ValuePowers::get_or_eval`: push
`main_gate.mul(value, last)` until the cache has grown by `fuel` cells. -/
def ValuePowers.extend [Mul F] [One F] (value : F) (powers : List F) :
    Nat → List F
  | 0 => powers
  | fuel + 1 =>
      ValuePowers.extend value (powers ++ [value * powers.getLastD 1]) fuel

/-- Value-level `ValuePowers::get_or_eval`: return the cached cell if
present, otherwise extend the cache by repeated multiplication by `value`
and return the fresh cell (the advanced cache is the first component). -/
def ValuePowers.get_or_eval [Mul F] [One F] [Zero F] (s : ValuePowers F)
    (exp : Nat) : ValuePowers F × F :=
  if exp < s.powers.length then (s, s.powers.getD exp 0)
  else
    let ps := ValuePowers.extend s.value s.powers (exp + 1 - s.powers.length)
    (⟨s.value, ps⟩, ps.getD exp 0)

/-- The cache invariant of `ValuePowers`: nonempty, and the `k`-th cell
holds `value ^ k`. -/
def ValuePowers.Inv [Monoid F] [Zero F] (s : ValuePowers F) : Prop :=
  s.powers ≠ [] ∧ ∀ i, i < s.powers.length → s.powers.getD i 0 = s.value ^ i

theorem ValuePowers.extend_spec [Monoid F] [Zero F] (value : F) :
    ∀ (fuel : Nat) (powers : List F), powers ≠ [] →
      (∀ i, i < powers.length → powers.getD i 0 = value ^ i) →
      (ValuePowers.extend value powers fuel).length = powers.length + fuel
      ∧ (ValuePowers.extend value powers fuel ≠ [])
      ∧ ∀ i, i < powers.length + fuel →
          (ValuePowers.extend value powers fuel).getD i 0 = value ^ i := by
  intro fuel
  induction fuel with
  | zero =>
    intro powers hne hinv
    exact ⟨by simp [ValuePowers.extend], by simpa [ValuePowers.extend], by
      intro i hi
      exact hinv i (by omega)⟩
  | succ fuel ih =>
    intro powers hne hinv
    have hlast : powers.getLastD 1 = value ^ (powers.length - 1) := by
      rw [List.getLastD_eq_getLast? , List.getLast?_eq_getElem?]
      have hlt : powers.length - 1 < powers.length := by
        cases powers with
        | nil => exact absurd rfl hne
        | cons a l => simp
      rw [List.getElem?_eq_getElem hlt]
      have := hinv (powers.length - 1) hlt
      rw [List.getD_eq_getElem _ _ hlt] at this
      simp [this]
    have hinv2 : ∀ i, i < (powers ++ [value * powers.getLastD 1]).length →
        (powers ++ [value * powers.getLastD 1]).getD i 0 = value ^ i := by
      intro i hi
      simp only [List.length_append, List.length_cons, List.length_nil] at hi
      rcases Nat.lt_or_ge i powers.length with hlt | hge
      · rw [List.getD_eq_getElem _ _ (by simp; omega),
          List.getElem_append_left hlt]
        have := hinv i hlt
        rw [List.getD_eq_getElem _ _ hlt] at this
        exact this
      · have hieq : i = powers.length := by omega
        subst hieq
        rw [List.getD_eq_getElem _ _ (by simp)]
        rw [List.getElem_append_right (le_refl _)]
        simp only [Nat.sub_self, List.getElem_cons_zero]
        rw [hlast, ← pow_succ']
        congr 1
        cases powers with
        | nil => exact absurd rfl hne
        | cons a l => simp
    have hres := ih (powers ++ [value * powers.getLastD 1])
      (by simp) hinv2
    refine ⟨?_, hres.2.1, ?_⟩
    · rw [ValuePowers.extend, hres.1]
      simp only [List.length_append, List.length_cons, List.length_nil]
      omega
    · intro i hi
      rw [ValuePowers.extend]
      apply hres.2.2
      simp only [List.length_append, List.length_cons, List.length_nil]
      omega

/-- C10: `ValuePowers` maintains the invariant that the `k`-th cached cell
holds `value ^ k` (the 0-th holds `1`): `new` panics (`none`) exactly when
the supplied `one` cell is not `1`, a successful `new` establishes the
invariant, and under the invariant `get_or_eval` returns `value ^ exp`,
preserves the invariant and the cached base value. -/
theorem ValuePowers_spec [Monoid F] [Zero F] [DecidableEq F]
    (one value : F) (exp : Nat) (s : ValuePowers F) (hs : s.Inv) :
    (ValuePowers.new one value = none ↔ one ≠ 1)
    ∧ (∀ s1, ValuePowers.new one value = some s1 →
        s1.Inv ∧ s1.value = value)
    ∧ (s.get_or_eval exp).2 = s.value ^ exp
    ∧ (s.get_or_eval exp).1.Inv
    ∧ (s.get_or_eval exp).1.value = s.value := by
  obtain ⟨hne, hinv⟩ := hs
  have hmain : (s.get_or_eval exp).2 = s.value ^ exp
      ∧ (s.get_or_eval exp).1.Inv
      ∧ (s.get_or_eval exp).1.value = s.value := by
    rw [ValuePowers.get_or_eval]
    by_cases hlt : exp < s.powers.length
    · rw [if_pos hlt]
      exact ⟨hinv exp hlt, ⟨hne, hinv⟩, rfl⟩
    · rw [if_neg hlt]
      obtain ⟨hlen, hnonnil, hget⟩ := ValuePowers.extend_spec s.value
        (exp + 1 - s.powers.length) s.powers hne hinv
      refine ⟨hget exp (by omega), ⟨hnonnil, ?_⟩, rfl⟩
      intro i hi
      rw [hlen] at hi
      exact hget i hi
  refine ⟨?_, ?_, hmain⟩
  · rw [ValuePowers.new]
    by_cases hone : one = 1
    · simp [hone]
    · simp [hone]
  · intro s1 hs1
    rw [ValuePowers.new] at hs1
    by_cases hone : one = 1
    · rw [if_pos hone] at hs1
      cases hs1
      subst hone
      refine ⟨⟨by simp, ?_⟩, rfl⟩
      intro i hi
      simp only [List.length_cons, List.length_nil] at hi
      rcases i with _ | _ | i
      · simp
      · simp
      · omega
    · rw [if_neg hone] at hs1
      cases hs1

/-- Witness for `ValuePowers_spec` at a concrete cache. -/
theorem ValuePowers_spec_witness :
    (ValuePowers.new (1 : ZMod 17) 2 = none ↔ (1 : ZMod 17) ≠ 1)
    ∧ (∀ s1, ValuePowers.new (1 : ZMod 17) 2 = some s1 →
        s1.Inv ∧ s1.value = 2)
    ∧ ((⟨2, [1, 2, 4]⟩ : ValuePowers (ZMod 17)).get_or_eval 5).2
        = (⟨2, [1, 2, 4]⟩ : ValuePowers (ZMod 17)).value ^ 5
    ∧ ((⟨2, [1, 2, 4]⟩ : ValuePowers (ZMod 17)).get_or_eval 5).1.Inv
    ∧ ((⟨2, [1, 2, 4]⟩ : ValuePowers (ZMod 17)).get_or_eval 5).1.value
        = (⟨2, [1, 2, 4]⟩ : ValuePowers (ZMod 17)).value :=
  ValuePowers_spec (1 : ZMod 17) 2 5 ⟨2, [1, 2, 4]⟩
    ⟨by decide, by decide⟩

/-- Value-level embedding of the in-circuit `eval_lagrange_poly`
(`src/ivc/protogalaxy/mod.rs`).  Main-gate gadgets become field operations:
`add_with_const` an addition of a constant, `invert_with_flag x` the pair of
the 0/1 is-zero flag and `x⁻¹` (Lean's `⁻¹` is total with `0⁻¹ = 0`; when
the flag is set, the gadget's inverse cell never influences the selected
result because the numerator vanishes too), `is_zero_term` the 0/1 flag,
`mul`/`mul_by_const` multiplications, and
`conditional_select a b f = f·a + (1−f)·b` with `f ∈ {0, 1}`.  The
`ValuePowers` cache supplies `X ^ k` (claim C10); `omega` generates the
cyclic subgroup of order `2 ^ lagrange_domain`
(`iter_cyclic_subgroup`), so `value = ω ^ lagrange_index`. -/
def eval_lagrange_poly [Field F] [DecidableEq F] (omega : F)
    (lagrange_domain lagrange_index : Nat) (X : F) : F :=
  let points_count := 2 ^ lagrange_domain
  let inverted_n : F := ((points_count : Nat) : F)⁻¹
  let value := omega ^ lagrange_index
  let X_sub_value := X - value
  let is_zero_X_sub_value : F := if X_sub_value = 0 then 1 else 0
  let X_sub_value_inverted := X_sub_value⁻¹
  let X_pow_n := X ^ points_count
  let X_pow_n_sub_1 := X_pow_n - 1
  let is_zero_X_pow_n_sub_1 : F := if X_pow_n_sub_1 = 0 then 1 else 0
  let is_num_den_zero := is_zero_X_sub_value * is_zero_X_pow_n_sub_1
  let fractional := X_pow_n_sub_1 * X_sub_value_inverted * (value * inverted_n)
  is_num_den_zero * 1 + (1 - is_num_den_zero) * fractional

/-- C8: for every `lagrange_index < 2 ^ lagrange_domain` and point `X`, the
in-circuit `eval_lagrange_poly` returns
`(ωⁱ / n) · (Xⁿ − 1) / (X − ωⁱ)` with `n = 2 ^ lagrange_domain`, and in the
`0/0` edge case `X = ωⁱ` it returns `1`, selected through the is-zero flags
rather than by dividing. -/
theorem eval_lagrange_poly_spec [Field F] [DecidableEq F] (omega : F)
    (lagrange_domain lagrange_index : Nat) (X : F)
    (hidx : lagrange_index < 2 ^ lagrange_domain)
    (homega : omega ^ 2 ^ lagrange_domain = 1) :
    (X = omega ^ lagrange_index →
      eval_lagrange_poly omega lagrange_domain lagrange_index X = 1)
    ∧ (X ≠ omega ^ lagrange_index →
      eval_lagrange_poly omega lagrange_domain lagrange_index X
        = omega ^ lagrange_index / ((2 ^ lagrange_domain : Nat) : F)
            * (X ^ 2 ^ lagrange_domain - 1) / (X - omega ^ lagrange_index)) := by
  constructor
  · intro hX
    subst hX
    have hnum : (omega ^ lagrange_index) ^ 2 ^ lagrange_domain - 1 = 0 := by
      rw [← pow_mul, Nat.mul_comm, pow_mul, homega, one_pow, sub_self]
    simp only [eval_lagrange_poly, sub_self, if_pos rfl, hnum]
    simp
  · intro hX
    have hden : X - omega ^ lagrange_index ≠ 0 := sub_ne_zero.mpr hX
    simp only [eval_lagrange_poly, if_neg hden]
    rw [zero_mul, zero_mul, sub_zero, one_mul, zero_add, div_eq_mul_inv,
      div_eq_mul_inv]
    ring

/-- Witness for `eval_lagrange_poly_spec`: `ZMod 17`, `ω = 4` of order 4
(`lagrange_domain = 2`), index 1, `X = 3`. -/
theorem eval_lagrange_poly_spec_witness :
    ((3 : ZMod 17) = (4 : ZMod 17) ^ 1 →
      eval_lagrange_poly (4 : ZMod 17) 2 1 3 = 1)
    ∧ ((3 : ZMod 17) ≠ (4 : ZMod 17) ^ 1 →
      eval_lagrange_poly (4 : ZMod 17) 2 1 3
        = (4 : ZMod 17) ^ 1 / ((2 ^ 2 : Nat) : ZMod 17)
            * ((3 : ZMod 17) ^ 2 ^ 2 - 1) / ((3 : ZMod 17) - 4 ^ 1)) :=
  eval_lagrange_poly_spec (4 : ZMod 17) 2 1 3 (by decide) (by decide)

end InCircuit

section FoldInstances

variable {F : Type}

/-- Value-level `AssignedPlonkInstance` (`src/ivc/protogalaxy/mod.rs`); `P`
is the type of assigned curve points, which the verifier never arithmetises
(commitment folding is deferred to the secondary circuit). -/
structure AssignedPlonkInstance (P F : Type) where
  W_commitments : List P
  instances : List (List F)
  challenges : List F

instance {P F : Type} : Inhabited (AssignedPlonkInstance P F) :=
  ⟨⟨[], [], []⟩⟩

/-- One step of the `try_fold` inside the in-circuit `fold_instances`
(`src/ivc/protogalaxy/mod.rs`): for the enumerated incoming instance
`p = (index, tr)`, evaluate `l_n = L_{index+1}(γ)` and accumulate
`cell + tr_cell * l_n` into every instance column and challenge;
`W_commitments` pass through. -/
def fold_instances_step [Field F] [DecidableEq F] {P : Type} (omega : F)
    (lagrange_domain : Nat) (gamma : F) (acc : AssignedPlonkInstance P F)
    (p : Nat × AssignedPlonkInstance P F) : AssignedPlonkInstance P F :=
  let l_n := eval_lagrange_poly omega lagrange_domain (p.1 + 1) gamma
  { W_commitments := acc.W_commitments
    instances := List.zipWith
      (fun acc_instances instances =>
        List.zipWith (fun acc_inst inst => acc_inst + inst * l_n)
          acc_instances instances)
      acc.instances p.2.instances
    challenges := List.zipWith (fun acc_cha cha => acc_cha + cha * l_n)
      acc.challenges p.2.challenges }

/-- Value-level embedding of the in-circuit `fold_instances`
(`src/ivc/protogalaxy/mod.rs`): `W_commitments` are cloned from the
accumulator ("Don't fold here, delegate it to secondary circuit"); instance
columns and challenges start as `acc · L₀(γ)` and the enumerated incoming
instances are folded in by `fold_instances_step`.  `omega` generates the
Lagrange cyclic subgroup of size `L + 1 = 2 ^ lagrange_domain`. -/
def fold_instances [Field F] [DecidableEq F] {P : Type} (omega : F)
    (lagrange_domain : Nat) (gamma : F) (acc : AssignedPlonkInstance P F)
    (incoming : List (AssignedPlonkInstance P F)) :
    AssignedPlonkInstance P F :=
  let l_0 := eval_lagrange_poly omega lagrange_domain 0 gamma
  incoming.enum.foldl (fold_instances_step omega lagrange_domain gamma)
    { W_commitments := acc.W_commitments
      instances := acc.instances.map fun column =>
        column.map fun cell => cell * l_0
      challenges := acc.challenges.map fun cell => cell * l_0 }

/-- Value-level `AssignedAccumulatorInstance`
(`src/ivc/protogalaxy/mod.rs`). -/
structure AssignedAccumulatorInstance (P F : Type) where
  ins : AssignedPlonkInstance P F
  betas : List F
  e : F

/-- Value content of the in-circuit `calculate_e`
(`src/ivc/protogalaxy/mod.rs`): `e = F(α)·L₀(γ) + Z(γ)·K(γ)`, where the
polynomial evaluations are `AssignedUnivariatePoly::eval` (value-equal to
the dense sum `Σ cᵢ xⁱ`, i.e. Horner), `L₀` is `eval_lagrange_poly 0` and
`Z(γ) = γ^(2^lagrange_domain) − 1` is the in-circuit
`eval_vanish_polynomial`. -/
def calculate_e [Field F] [DecidableEq F] (omega : F)
    (lagrange_domain : Nat) (poly_F poly_K : List F) (gamma alpha : F) : F :=
  UnivariatePoly.eval poly_F alpha
      * eval_lagrange_poly omega lagrange_domain 0 gamma
    + (gamma ^ 2 ^ lagrange_domain - 1) * UnivariatePoly.eval poly_K gamma

/-- Value-level data flow of the in-circuit `verify`
(`src/ivc/protogalaxy/mod.rs`): the challenges `(δ, α, γ)` squeezed by the
external RO circuit (`AssignedChallanges::generate`) enter as parameters;
betas are updated by `calculate_betas_stroke`, `e` by `calculate_e`, and the
instance is folded by `fold_instances`. -/
def verify [Field F] [DecidableEq F] {P : Type} (omega : F)
    (lagrange_domain : Nat) (delta alpha gamma : F)
    (accumulator : AssignedAccumulatorInstance P F)
    (incoming : List (AssignedPlonkInstance P F))
    (poly_F poly_K : List F) : AssignedAccumulatorInstance P F :=
  { ins := fold_instances omega lagrange_domain gamma accumulator.ins incoming
    betas := calculate_betas_stroke accumulator.betas alpha delta
    e := calculate_e omega lagrange_domain poly_F poly_K gamma alpha }

theorem fold_foldl_W [Field F] [DecidableEq F] {P : Type} (omega : F)
    (lagrange_domain : Nat) (gamma : F) :
    ∀ (l : List (Nat × AssignedPlonkInstance P F))
      (a : AssignedPlonkInstance P F),
      (l.foldl (fold_instances_step omega lagrange_domain gamma)
          a).W_commitments = a.W_commitments := by
  intro l
  induction l with
  | nil => intro a; rfl
  | cons p rest ih =>
    intro a
    rw [List.foldl_cons, ih]
    rfl

/-- C7: the `PlonkInstance` produced by the in-circuit verify step has
`W_commitments` identical, cell for cell, to the input accumulator's —
instance scalars and challenges are folded, commitments pass through
unchanged (their folding is deferred to the secondary curve). -/
theorem verify_W_commitments_unchanged [Field F] [DecidableEq F] {P : Type}
    (omega : F) (lagrange_domain : Nat) (delta alpha gamma : F)
    (accumulator : AssignedAccumulatorInstance P F)
    (incoming : List (AssignedPlonkInstance P F)) (poly_F poly_K : List F) :
    (verify omega lagrange_domain delta alpha gamma accumulator incoming
        poly_F poly_K).ins.W_commitments
      = accumulator.ins.W_commitments := by
  show (fold_instances omega lagrange_domain gamma accumulator.ins
      incoming).W_commitments = accumulator.ins.W_commitments
  rw [fold_instances]
  exact fold_foldl_W omega lagrange_domain gamma _ _

theorem getD_zipWith {α β γ : Type} (f : α → β → γ) (xs : List α)
    (ys : List β) (k : Nat) (d1 : α) (d2 : β) (d3 : γ)
    (hk : k < xs.length) (hk2 : k < ys.length) :
    (List.zipWith f xs ys).getD k d3 = f (xs.getD k d1) (ys.getD k d2) := by
  rw [List.getD_eq_getElem _ _ (by rw [List.length_zipWith]; omega),
    List.getElem_zipWith, List.getD_eq_getElem _ _ hk,
    List.getD_eq_getElem _ _ hk2]

theorem getD_map {α β : Type} (f : α → β) (l : List α) (k : Nat)
    (d1 : α) (d2 : β) (hk : k < l.length) :
    (l.map f).getD k d2 = f (l.getD k d1) := by
  rw [List.getD_eq_getElem _ _ (by rw [List.length_map]; omega),
    List.getElem_map, List.getD_eq_getElem _ _ hk]

theorem fold_challenges_getD [Field F] [DecidableEq F] {P : Type}
    (omega : F) (lagrange_domain : Nat) (gamma : F) :
    ∀ (l : List (AssignedPlonkInstance P F)) (s : Nat)
      (a : AssignedPlonkInstance P F),
      (∀ tr ∈ l, tr.challenges.length = a.challenges.length) →
      ((List.enumFrom s l).foldl
          (fold_instances_step omega lagrange_domain gamma)
          a).challenges.length = a.challenges.length
      ∧ ∀ k, k < a.challenges.length →
        ((List.enumFrom s l).foldl
            (fold_instances_step omega lagrange_domain gamma)
            a).challenges.getD k 0
          = a.challenges.getD k 0
            + ∑ j ∈ Finset.range l.length,
                (l.getD j default).challenges.getD k 0
                  * eval_lagrange_poly omega lagrange_domain (s + 1 + j)
                      gamma := by
  intro l
  induction l with
  | nil =>
    intro s a _
    refine ⟨rfl, ?_⟩
    intro k hk
    simp
  | cons tr rest ih =>
    intro s a hshape
    have htr : tr.challenges.length = a.challenges.length :=
      hshape tr (by simp)
    set a1 := fold_instances_step omega lagrange_domain gamma a (s, tr)
      with ha1
    have ha1cha : a1.challenges = List.zipWith
        (fun acc_cha cha => acc_cha
          + cha * eval_lagrange_poly omega lagrange_domain (s + 1) gamma)
        a.challenges tr.challenges := rfl
    have ha1len : a1.challenges.length = a.challenges.length := by
      rw [ha1cha, List.length_zipWith, htr]
      omega
    obtain ⟨ihlen, ihget⟩ := ih (s + 1) a1 (fun tr2 h2 => by
      rw [ha1len]
      exact hshape tr2 (by simp [h2]))
    rw [List.enumFrom_cons, List.foldl_cons]
    refine ⟨by rw [ihlen, ha1len], ?_⟩
    intro k hk
    rw [ihget k (by rw [ha1len]; exact hk), ha1cha,
      getD_zipWith _ _ _ k 0 0 0 hk (by omega)]
    rw [List.length_cons, Finset.sum_range_succ']
    simp only [List.getD_cons_zero, List.getD_cons_succ, Nat.add_zero]
    have hsums : (∑ j ∈ Finset.range rest.length,
        (rest.getD j default).challenges.getD k 0
          * eval_lagrange_poly omega lagrange_domain (s + 1 + (j + 1)) gamma)
        = ∑ j ∈ Finset.range rest.length,
          (rest.getD j default).challenges.getD k 0
            * eval_lagrange_poly omega lagrange_domain (s + 1 + 1 + j)
                gamma :=
      Finset.sum_congr rfl fun j _ => by
        have hj2 : s + 1 + (j + 1) = s + 1 + 1 + j := by omega
        rw [hj2]
    rw [hsums]
    ring

theorem fold_instances_cols [Field F] [DecidableEq F] {P : Type}
    (omega : F) (lagrange_domain : Nat) (gamma : F) :
    ∀ (l : List (AssignedPlonkInstance P F)) (s : Nat)
      (a : AssignedPlonkInstance P F),
      (∀ tr ∈ l, tr.instances.length = a.instances.length
        ∧ ∀ c, c < a.instances.length →
            (tr.instances.getD c []).length
              = (a.instances.getD c []).length) →
      ((List.enumFrom s l).foldl
          (fold_instances_step omega lagrange_domain gamma)
          a).instances.length = a.instances.length
      ∧ (∀ c, c < a.instances.length →
          (((List.enumFrom s l).foldl
              (fold_instances_step omega lagrange_domain gamma)
              a).instances.getD c []).length
            = (a.instances.getD c []).length)
      ∧ ∀ c k, c < a.instances.length →
          k < (a.instances.getD c []).length →
          (((List.enumFrom s l).foldl
              (fold_instances_step omega lagrange_domain gamma)
              a).instances.getD c []).getD k 0
            = (a.instances.getD c []).getD k 0
              + ∑ j ∈ Finset.range l.length,
                  ((l.getD j default).instances.getD c []).getD k 0
                    * eval_lagrange_poly omega lagrange_domain (s + 1 + j)
                        gamma := by
  intro l
  induction l with
  | nil =>
    intro s a _
    refine ⟨rfl, fun c _ => rfl, ?_⟩
    intro c k hc hk
    simp
  | cons tr rest ih =>
    intro s a hshape
    obtain ⟨htr, htrc⟩ := hshape tr (by simp)
    set a1 := fold_instances_step omega lagrange_domain gamma a (s, tr)
      with ha1
    have ha1ins : a1.instances = List.zipWith
        (fun acc_instances instances =>
          List.zipWith (fun acc_inst inst => acc_inst
            + inst * eval_lagrange_poly omega lagrange_domain (s + 1) gamma)
            acc_instances instances)
        a.instances tr.instances := rfl
    have ha1len : a1.instances.length = a.instances.length := by
      rw [ha1ins, List.length_zipWith, htr]
      omega
    have ha1col : ∀ c, c < a.instances.length →
        a1.instances.getD c [] = List.zipWith
          (fun acc_inst inst => acc_inst
            + inst * eval_lagrange_poly omega lagrange_domain (s + 1) gamma)
          (a.instances.getD c []) (tr.instances.getD c []) := by
      intro c hc
      rw [ha1ins]
      exact getD_zipWith _ _ _ c [] [] [] hc (by omega)
    have ha1collen : ∀ c, c < a.instances.length →
        (a1.instances.getD c []).length = (a.instances.getD c []).length := by
      intro c hc
      rw [ha1col c hc, List.length_zipWith, htrc c hc]
      omega
    obtain ⟨ihlen, ihcol, ihget⟩ := ih (s + 1) a1 (fun tr2 h2 => by
      obtain ⟨hl2, hc2⟩ := hshape tr2 (by simp [h2])
      refine ⟨by rw [ha1len, hl2], ?_⟩
      intro c hc
      rw [ha1len] at hc
      rw [ha1collen c hc, hc2 c hc])
    rw [List.enumFrom_cons, List.foldl_cons]
    refine ⟨by rw [ihlen, ha1len], ?_, ?_⟩
    · intro c hc
      rw [ihcol c (by rw [ha1len]; exact hc), ha1collen c hc]
    · intro c k hc hk
      rw [ihget c k (by rw [ha1len]; exact hc)
        (by rw [ha1collen c hc]; exact hk)]
      rw [ha1col c hc,
        getD_zipWith _ _ _ k 0 0 0 hk (by rw [htrc c hc]; exact hk)]
      rw [List.length_cons, Finset.sum_range_succ']
      simp only [List.getD_cons_zero, List.getD_cons_succ, Nat.add_zero]
      have hsums : (∑ j ∈ Finset.range rest.length,
          ((rest.getD j default).instances.getD c []).getD k 0
            * eval_lagrange_poly omega lagrange_domain (s + 1 + (j + 1))
                gamma)
          = ∑ j ∈ Finset.range rest.length,
            ((rest.getD j default).instances.getD c []).getD k 0
              * eval_lagrange_poly omega lagrange_domain (s + 1 + 1 + j)
                  gamma :=
        Finset.sum_congr rfl fun j _ => by
          have hj2 : s + 1 + (j + 1) = s + 1 + 1 + j := by omega
          rw [hj2]
      rw [hsums]
      ring

/-- C9: the in-circuit `fold_instances` computes, for every instance column
`c` and position `k`,
`new.instances[c][k] = acc.instances[c][k]·L₀(γ) + Σ_{j=1..L}
incoming[j−1].instances[c][k]·L_j(γ)`, and applies the same recipe to the
challenges; `L_j` are the `eval_lagrange_poly` Lagrange basis values over
the lagrange domain of size `L + 1`. -/
theorem fold_instances_spec [Field F] [DecidableEq F] {P : Type} (omega : F)
    (lagrange_domain : Nat) (gamma : F) (acc : AssignedPlonkInstance P F)
    (incoming : List (AssignedPlonkInstance P F))
    (hinst : ∀ tr ∈ incoming, tr.instances.length = acc.instances.length
      ∧ ∀ c, c < acc.instances.length →
          (tr.instances.getD c []).length = (acc.instances.getD c []).length)
    (hcha : ∀ tr ∈ incoming,
      tr.challenges.length = acc.challenges.length) :
    (∀ c k, c < acc.instances.length →
      k < (acc.instances.getD c []).length →
      ((fold_instances omega lagrange_domain gamma acc
          incoming).instances.getD c []).getD k 0
        = (acc.instances.getD c []).getD k 0
            * eval_lagrange_poly omega lagrange_domain 0 gamma
          + ∑ j ∈ Finset.range incoming.length,
              ((incoming.getD j default).instances.getD c []).getD k 0
                * eval_lagrange_poly omega lagrange_domain (j + 1) gamma)
    ∧ ∀ k, k < acc.challenges.length →
      (fold_instances omega lagrange_domain gamma acc
          incoming).challenges.getD k 0
        = acc.challenges.getD k 0
            * eval_lagrange_poly omega lagrange_domain 0 gamma
          + ∑ j ∈ Finset.range incoming.length,
              (incoming.getD j default).challenges.getD k 0
                * eval_lagrange_poly omega lagrange_domain (j + 1) gamma := by
  set l_0 := eval_lagrange_poly omega lagrange_domain 0 gamma with hl0
  set init : AssignedPlonkInstance P F :=
    { W_commitments := acc.W_commitments
      instances := acc.instances.map fun column =>
        column.map fun cell => cell * l_0
      challenges := acc.challenges.map fun cell => cell * l_0 } with hinit
  have hinitlen : init.instances.length = acc.instances.length := by
    simp [hinit]
  have hinitcol : ∀ c, c < acc.instances.length →
      init.instances.getD c []
        = (acc.instances.getD c []).map fun cell => cell * l_0 := by
    intro c hc
    exact getD_map _ _ c [] [] hc
  have hinitcollen : ∀ c, c < acc.instances.length →
      (init.instances.getD c []).length = (acc.instances.getD c []).length := by
    intro c hc
    rw [hinitcol c hc, List.length_map]
  have hinitchalen : init.challenges.length = acc.challenges.length := by
    simp [hinit]
  have hfold : fold_instances omega lagrange_domain gamma acc incoming
      = (List.enumFrom 0 incoming).foldl
          (fold_instances_step omega lagrange_domain gamma) init := rfl
  constructor
  · intro c k hc hk
    obtain ⟨_, _, hget⟩ := fold_instances_cols omega lagrange_domain gamma
      incoming 0 init (fun tr h2 => by
        obtain ⟨hl2, hc2⟩ := hinst tr h2
        refine ⟨by rw [hinitlen, hl2], ?_⟩
        intro cc hcc
        rw [hinitlen] at hcc
        rw [hinitcollen cc hcc, hc2 cc hcc])
    rw [hfold, hget c k (by rw [hinitlen]; exact hc)
      (by rw [hinitcollen c hc]; exact hk)]
    rw [hinitcol c hc, getD_map _ _ k 0 0 hk]
    have hsums : (∑ j ∈ Finset.range incoming.length,
        ((incoming.getD j default).instances.getD c []).getD k 0
          * eval_lagrange_poly omega lagrange_domain (0 + 1 + j) gamma)
        = ∑ j ∈ Finset.range incoming.length,
          ((incoming.getD j default).instances.getD c []).getD k 0
            * eval_lagrange_poly omega lagrange_domain (j + 1) gamma :=
      Finset.sum_congr rfl fun j _ => by
        have hj2 : 0 + 1 + j = j + 1 := by omega
        rw [hj2]
    rw [hsums]
  · intro k hk
    obtain ⟨_, hget⟩ := fold_challenges_getD omega lagrange_domain gamma
      incoming 0 init (fun tr h2 => by
        rw [hinitchalen]
        exact hcha tr h2)
    rw [hfold, hget k (by rw [hinitchalen]; exact hk)]
    have hch : init.challenges.getD k 0 = acc.challenges.getD k 0 * l_0 := by
      exact getD_map _ _ k 0 0 hk
    rw [hch]
    have hsums : (∑ j ∈ Finset.range incoming.length,
        (incoming.getD j default).challenges.getD k 0
          * eval_lagrange_poly omega lagrange_domain (0 + 1 + j) gamma)
        = ∑ j ∈ Finset.range incoming.length,
          (incoming.getD j default).challenges.getD k 0
            * eval_lagrange_poly omega lagrange_domain (j + 1) gamma :=
      Finset.sum_congr rfl fun j _ => by
        have hj2 : 0 + 1 + j = j + 1 := by omega
        rw [hj2]
    rw [hsums]

/-- Witness for `fold_instances_spec`: `ZMod 17`, `ω = 4` (order 4,
`lagrange_domain = 2`), one incoming instance matching the accumulator's
shape. -/
theorem fold_instances_spec_witness :
    (let acc : AssignedPlonkInstance Unit (ZMod 17) := ⟨[], [[2, 3]], [5]⟩
     let incoming : List (AssignedPlonkInstance Unit (ZMod 17)) :=
       [⟨[], [[7, 11]], [13]⟩]
     (∀ c k, c < acc.instances.length →
        k < (acc.instances.getD c []).length →
        ((fold_instances (4 : ZMod 17) 2 3 acc
            incoming).instances.getD c []).getD k 0
          = (acc.instances.getD c []).getD k 0
              * eval_lagrange_poly (4 : ZMod 17) 2 0 3
            + ∑ j ∈ Finset.range incoming.length,
                ((incoming.getD j default).instances.getD c []).getD k 0
                  * eval_lagrange_poly (4 : ZMod 17) 2 (j + 1) 3)
     ∧ ∀ k, k < acc.challenges.length →
        (fold_instances (4 : ZMod 17) 2 3 acc incoming).challenges.getD k 0
          = acc.challenges.getD k 0 * eval_lagrange_poly (4 : ZMod 17) 2 0 3
            + ∑ j ∈ Finset.range incoming.length,
                (incoming.getD j default).challenges.getD k 0
                  * eval_lagrange_poly (4 : ZMod 17) 2 (j + 1) 3) :=
  fold_instances_spec (4 : ZMod 17) 2 3 ⟨[], [[2, 3]], [5]⟩
    [⟨[], [[7, 11]], [13]⟩]
    (by
      intro tr htr
      simp only [List.mem_singleton] at htr
      subst htr
      exact ⟨rfl, by decide⟩)
    (by
      intro tr htr
      simp only [List.mem_singleton] at htr
      subst htr
      rfl)

end FoldInstances

end Sirius
